import Mathlib

/-!
# go-copier: a sequential model of `copier.go` and `group.go`

The Copier (`instance`) and the `Group` are embedded as state-passing
functions.  Go's nullable `error` is `Option Error`, a nil interface is
`none`.  The mutex only delimits the atomic read-and-clear sections, so it
has no field of its own.  The two points where the code suspends (the
receive `<-done` in `Copy` and the `select` in `Wait`) take what the
environment does there as an argument.

A ghost trace records every operation invoked on the two endpoints, so that
statements of the form "the destination is never closed" or "the source is
not read again" can be expressed.
-/

namespace Copier

/-- One byte of the stream. -/
abbrev Byte := Fin 256

/-- Go `error` values that occur: the sentinels of package `io` used by
`io.Copy`, the two context errors, any other error (identified by a code),
and an aggregate built by the multi-error helper. -/
inductive Error where
  | EOF
  | ErrShortWrite
  | errInvalidWrite
  | Canceled
  | DeadlineExceeded
  | other (code : Nat)
  | multi (errs : List Error)

/-- The causes an error exposes: the members of an aggregate, the error
itself otherwise. -/
def Error.causes : Error → List Error
  | .multi errs => errs
  | e => [e]

/-- Modelled from the spec: the error-aggregation utility (`multierror.Append`),
which is not among the repository sources.  It accepts a first error and zero
or more further ones, each possibly absent, and collects the non-absent ones
in argument order.  The flattening of nested aggregates that the library also
performs is not modelled: every non-absent input is kept as one cause. -/
def Append (err : Option Error) (errs : List (Option Error)) : List Error :=
  (err :: errs).reduceOption

/-- Modelled from the spec: `(*multierror.Error).ErrorOrNil`, absent iff no
cause was collected. -/
def ErrorOrNil (errs : List Error) : Option Error :=
  match errs with
  | [] => none
  | e :: es => some (.multi (e :: es))

/-- The outcome of one `Read` call: the bytes delivered and the error. -/
structure ReadResult where
  data : List Byte
  err : Option Error

/-- An `io.Reader` value.  `Read k` is what the `k`-th call of `Read` returns.
`CloseRead` is present iff the value implements `CloseReader`, `Close` iff it
implements `io.Closer`; each holds the error the method returns. -/
structure Reader where
  Read : Nat → ReadResult
  CloseRead : Option (Option Error)
  Close : Option (Option Error)

/-- An `io.Writer` value.  `Write k p` is the pair `(n, err)` that the `k`-th
call of `Write`, given `p`, returns.  `CloseWrite` is present iff the value
implements `CloseWriter`, `Close` iff it implements `io.Closer`. -/
structure Writer where
  Write : Nat → List Byte → Int × Option Error
  CloseWrite : Option (Option Error)
  Close : Option (Option Error)

/-- The channel `done`, once made. -/
inductive Chan where
  | live
  | closed
  deriving DecidableEq

/-- The struct `instance` (the mutex apart). -/
structure Instance where
  src : Option Reader
  dst : Option Writer
  done : Option Chan
  written : Int
  error : Option Error

/-- The ghost trace: the operations invoked on the two endpoints, and a mark
for every call of `Wait`. -/
inductive Event where
  | srcRead (r : ReadResult)
  | dstWrite (p : List Byte)
  | srcCloseRead
  | srcClose
  | dstCloseWrite
  | dstClose
  | wait

/-- A Copier together with the state of the world around it: how many calls
the source and the destination have served, and the ghost trace. -/
structure State where
  c : Instance
  reads : Nat
  writes : Nat
  trace : List Event

/-- How a call ends: it returns, it panics (run-time fault), or it does not
return (suspended for ever, or the fuel of a loop ran out). -/
inductive Outcome (α : Type) where
  | ok (a : α)
  | fault
  | pending

/-- The constructor `New(dst, src)`. -/
def New (dst : Writer) (src : Reader) : State :=
  { c := { src := some src, dst := some dst, done := none, written := 0, error := none },
    reads := 0, writes := 0, trace := [] }

/-- Method `instance.CloseRead`: read-and-clear the source under the lock, then
release it by capability. -/
def CloseRead (s : State) : Option Error × State :=
  let src := s.c.src
  let s1 : State := { s with c := { s.c with src := none } }
  match src with
  | none => (none, s1)
  | some v =>
    match v.CloseRead with
    | some r => (r, { s1 with trace := s1.trace ++ [Event.srcCloseRead] })
    | none =>
      match v.Close with
      | some r => (r, { s1 with trace := s1.trace ++ [Event.srcClose] })
      | none => (none, s1)

/-- Method `instance.CloseWrite`: read-and-clear the destination under the lock, then
release it by capability. -/
def CloseWrite (s : State) : Option Error × State :=
  let dst := s.c.dst
  let s1 : State := { s with c := { s.c with dst := none } }
  match dst with
  | none => (none, s1)
  | some v =>
    match v.CloseWrite with
    | some r => (r, { s1 with trace := s1.trace ++ [Event.dstCloseWrite] })
    | none =>
      match v.Close with
      | some r => (r, { s1 with trace := s1.trace ++ [Event.dstClose] })
      | none => (none, s1)

/-- Method `instance.Close`: `CloseRead`, then `CloseWrite`, aggregated. -/
def Close (s : State) : Option Error × State :=
  let r := CloseRead s
  let w := CloseWrite r.2
  (ErrorOrNil (Append none [r.1, w.1]), w.2)

/-- Method `instance.Written`. -/
def Written (s : State) : Int := s.c.written

/-- Method `instance.Err`. -/
def Err (s : State) : Option Error := s.c.error

/-- How one iteration of the loop in `io.Copy` ends: the loop goes on, it is
left (`break`) with the error to return, or a method call on a nil interface
panics. -/
inductive Iter where
  | next (written : Int) (s : State)
  | stop (written : Int) (err : Option Error) (s : State)
  | fault

/-- The end of an iteration, `if er != nil { if er != EOF { err = er }; break }`. -/
def readCheck (er : Option Error) (written : Int) (s : State) : Iter :=
  match er with
  | none => .next written s
  | some .EOF => .stop written none s
  | some e => .stop written (some e) s

/-- The check of what `Write` returned, given the `nr` bytes it was handed:
`if nw < 0 || nr < nw { nw = 0; if ew == nil { ew = errInvalidWrite } }`. -/
def writeCheck (nr : Int) (res : Int × Option Error) : Int × Option Error :=
  if res.1 < 0 ∨ nr < res.1 then
    (0, match res.2 with
        | none => some Error.errInvalidWrite
        | some e => some e)
  else res

/-- The body of `if nr > 0 { ... }` in the loop of `io.Copy`: call
`dst.Write(buf[0:nr])`, check the result, `written += int64(nw)`, then
`if ew != nil { err = ew; break }` and
`if nr != nw { err = ErrShortWrite; break }`. -/
def writeThrough (d : Writer) (rr : ReadResult) (written : Int) (s1 : State) : Iter :=
  let res := writeCheck rr.data.length (d.Write s1.writes rr.data)
  let s2 : State :=
    { s1 with writes := s1.writes + 1, trace := s1.trace ++ [Event.dstWrite rr.data] }
  match res.2 with
  | some e => .stop (written + res.1) (some e) s2
  | none =>
    if (rr.data.length : Int) = res.1 then readCheck rr.err (written + res.1) s2
    else .stop (written + res.1) (some Error.ErrShortWrite) s2

/-- One iteration of the loop of `io.Copy(dst, src)` from the standard library,
for endpoints that take the generic path (neither `WriterTo` nor
`ReaderFrom`): read a chunk, write it through, check both results.  `written`
is the `int64` counter; streams are taken to be shorter than `2^63` bytes, so
it never wraps. -/
def copyStep (dst : Option Writer) (src : Option Reader) (written : Int) (s : State) : Iter :=
  match src with
  | none => .fault
  | some r =>
    let rr := r.Read s.reads
    let s1 : State := { s with reads := s.reads + 1, trace := s.trace ++ [Event.srcRead rr] }
    if 0 < (rr.data.length : Int) then
      match dst with
      | none => .fault
      | some d => writeThrough d rr written s1
    else readCheck rr.err written s1

/-- The loop of `io.Copy`; the first argument bounds the number of
iterations. -/
def copyBuffer (dst : Option Writer) (src : Option Reader) :
    Nat → Int → State → Outcome (Int × Option Error × State)
  | 0, _, _ => .pending
  | fuel + 1, written, s =>
    match copyStep dst src written s with
    | .next written1 s1 => copyBuffer dst src fuel written1 s1
    | .stop written1 err s1 => .ok (written1, err, s1)
    | .fault => .fault

/-- The call `io.Copy(dst, src)`. -/
def ioCopy (fuel : Nat) (dst : Option Writer) (src : Option Reader) (s : State) :
    Outcome (Int × Option Error × State) :=
  copyBuffer dst src fuel 0 s

/-- The head of `Copy` on the path that runs the transfer: make the channel
and store it (lines 136-138). -/
def copyBegin (s : State) : State :=
  { s with c := { s.c with done := some Chan.live } }

/-- The tail of `Copy` once `io.Copy` has returned `(n, err)`: record both,
on failure replace the error by the result of `Close`, then close the
channel (lines 140-146). -/
def copyFinish (n : Int) (err : Option Error) (s : State) : State :=
  let s1 : State := { s with c := { s.c with written := n, error := err } }
  let s2 : State :=
    match err with
    | none => s1
    | some _ =>
      let r := Close s1
      { r.2 with c := { r.2.c with error := r.1 } }
  { s2 with c := { s2.c with done := some Chan.closed } }

/-- Method `instance.Copy`.  With the channel already made the call only receives
from it: at once when it is closed, and otherwise when the invocation that is
running the transfer finishes, which `join` supplies as the pair its `io.Copy`
returns (`none`: it never finishes). -/
def Copy (fuel : Nat) (join : Option (Int × Option Error)) (s : State) : Outcome State :=
  match s.c.done with
  | some Chan.closed => .ok s
  | some Chan.live =>
    match join with
    | none => .pending
    | some r => .ok (copyFinish r.1 r.2 s)
  | none =>
    let s0 := copyBegin s
    match ioCopy fuel s0.c.dst s0.c.src s0 with
    | .ok r => .ok (copyFinish r.1 r.2.1 r.2.2)
    | .fault => .fault
    | .pending => .pending

/-- A `context.Context` at one instant: `err` is what `ctx.Err()` returns, nil
as long as the context is not done. -/
structure Context where
  err : Option Error

/-- What ends a suspended `select` in `Wait`: the context becomes done with an
error, or the invocation of `Copy` that is running the transfer gets `(n, err)`
back from `io.Copy` and runs to `close(done)`.  The reads and writes of that
running loop are not replayed in the trace. -/
inductive Wake where
  | expired (e : Error)
  | finished (n : Int) (err : Option Error)

/-- The choices the scheduler makes in `Wait`: which case `select` takes when
both are ready, and what ends a suspension (`none`: nothing ever does). -/
structure Sched where
  pickCtx : Bool
  wake : Option Wake

/-- Method `instance.Wait`.  Returns the error, the context as it is on return, and
the state. -/
def Wait (ctx : Context) (sch : Sched) (s : State) : Outcome (Option Error × Context × State) :=
  let s : State := { s with trace := s.trace ++ [Event.wait] }
  match s.c.done with
  | none => .ok (none, ctx, s)
  | some Chan.closed =>
    match ctx.err with
    | none => .ok (none, ctx, s)
    | some e => if sch.pickCtx then .ok (some e, ctx, s) else .ok (none, ctx, s)
  | some Chan.live =>
    match ctx.err with
    | some e => .ok (some e, ctx, s)
    | none =>
      match sch.wake with
      | none => .pending
      | some (Wake.expired e) => .ok (some e, { err := some e }, s)
      | some (Wake.finished n err) => .ok (none, ctx, copyFinish n err s)

/-- Method `instance.Shutdown`: `CloseRead`, `Wait`, then either the context's
error or `CloseWrite` and the aggregate of the three errors. -/
def Shutdown (ctx : Context) (sch : Sched) (s : State) : Outcome (Option Error × State) :=
  let r := CloseRead s
  match Wait ctx sch r.2 with
  | .fault => .fault
  | .pending => .pending
  | .ok w =>
    match w.2.1.err with
    | some ctxErr => .ok (some ctxErr, w.2.2)
    | none =>
      let cw := CloseWrite w.2.2
      .ok (ErrorOrNil (Append r.1 [w.1, cw.1]), cw.2)

/-! ## The Group -/

/-- The method set of the `Copier` interface as the Group uses it.  A member is
a reference of type `κ` into a store of type `σ` that holds the Copier objects;
each method takes the store and returns the new one. -/
structure CopierOps (κ σ : Type) where
  New : Writer → Reader → σ → κ × σ
  Copy : κ → σ → Outcome σ
  Wait : Context → κ → σ → Outcome (Option Error × σ)
  Shutdown : Context → κ → σ → Outcome (Option Error × σ)

/-- A node of the membership list holding the handle `element{g, copier}`.
`id` is the identity of the node (its address); the back-reference `g` is the
group the function is applied to. -/
structure element (κ : Type) where
  id : Nat
  Copier : κ

/-- The struct `Group`: the membership list in insertion order.  `next` is the
identity the next node gets (ghost). -/
structure Group (κ : Type) where
  list : List (element κ)
  next : Nat

/-- The zero `Group`. -/
def Group.zero (κ : Type) : Group κ := { list := [], next := 0 }

/-- Node identities are distinct and were all handed out already. -/
def Group.wf {κ : Type} (g : Group κ) : Prop :=
  (g.list.map (fun e => e.id)).Nodup ∧ ∀ e ∈ g.list, e.id < g.next

/-- The call `g.list.PushBack(e)`: a new node at the back; returns its identity. -/
def Group.PushBack {κ : Type} (c : κ) (g : Group κ) : Nat × Group κ :=
  (g.next, { list := g.list ++ [{ id := g.next, Copier := c }], next := g.next + 1 })

/-- The call `g.list.Remove(elem)`: unlink the node with this identity, if it is in the
list. -/
def Group.Remove {κ : Type} (id : Nat) (g : Group κ) : Group κ :=
  { g with list := g.list.eraseP (fun e => e.id == id) }

/-- Method `element.Copy`: push the handle, run the wrapped `Copy`, and remove the
node on the way out (deferred, so also when the wrapped `Copy` panics).  When
the wrapped `Copy` does not return, the node stays. -/
def element.Copy {κ σ : Type} (ops : CopierOps κ σ) (c : κ) (g : Group κ) (st : σ) :
    Outcome σ × Group κ :=
  let p := Group.PushBack c g
  match ops.Copy c st with
  | .ok st1 => (.ok st1, Group.Remove p.1 p.2)
  | .fault => (.fault, Group.Remove p.1 p.2)
  | .pending => (.pending, p.2)

/-- Method `Group.AddCopier`: returns the handle; the goroutine `go e.Copy()` it
starts is run at the point of the call. -/
def Group.AddCopier {κ σ : Type} (ops : CopierOps κ σ) (c : κ) (g : Group κ) (st : σ) :
    κ × Outcome σ × Group κ :=
  (c, element.Copy ops c g st)

/-- Method `Group.Add`: `AddCopier(New(dst, src))`. -/
def Group.Add {κ σ : Type} (ops : CopierOps κ σ) (dst : Writer) (src : Reader)
    (g : Group κ) (st : σ) : κ × Outcome σ × Group κ :=
  let n := ops.New dst src st
  Group.AddCopier ops n.1 g n.2

/-- What the goroutines of the members do to the membership list while
`Group.Wait` is in one iteration: an `element.Copy` pushes its node, or its
deferred `Remove` runs. -/
inductive ListAct (κ : Type) where
  | push (c : κ)
  | remove (id : Nat)

/-- One such action on the list. -/
def Group.act {κ : Type} : ListAct κ → Group κ → Group κ
  | .push c, g => (Group.PushBack c g).2
  | .remove id, g => Group.Remove id g

/-- A sequence of such actions, first to last. -/
def Group.acts {κ : Type} : List (ListAct κ) → Group κ → Group κ
  | [], g => g
  | a :: rest, g => Group.acts rest (Group.act a g)

/-- Method `Group.Wait`: every iteration reads `g.list.Front()` anew, returns nil
when there is none, waits on the front member and returns its error if it has
one.  `env i` is what the members' goroutines did to the list by the time
iteration `i` has ended.  The first numeric argument bounds the number of
iterations, the second is the number of the iteration. -/
def Group.Wait {κ σ : Type} (ops : CopierOps κ σ) (ctx : Context)
    (env : Nat → List (ListAct κ)) :
    Nat → Nat → Group κ → σ → Outcome (Option Error × σ)
  | 0, _, _, _ => .pending
  | fuel + 1, i, g, st =>
    match g.list.head? with
    | none => .ok (none, st)
    | some front =>
      match ops.Wait ctx front.Copier st with
      | .ok (some err, st1) => .ok (some err, st1)
      | .ok (none, st1) => Group.Wait ops ctx env fuel (i + 1) (Group.acts (env i) g) st1
      | .fault => .fault
      | .pending => .pending

/-- The goroutines of `Group.Shutdown`, run one after the other in the order
the scheduler picks: at step `k`, of the goroutines still to run the one at
position `pick k` (modulo their number) runs `c.Shutdown(ctx)` and sends the
result.  Returns the node identities with the results in the order sent. -/
def Group.shutdownRun {κ σ : Type} (ops : CopierOps κ σ) (ctx : Context) (pick : Nat → Nat) :
    Nat → Nat → List (element κ) → σ → Outcome (List (Nat × Option Error) × σ)
  | 0, _, _, st => .ok ([], st)
  | n + 1, k, todo, st =>
    match todo[pick k % todo.length]? with
    | none => .pending
    | some e =>
      match ops.Shutdown ctx e.Copier st with
      | .fault => .fault
      | .pending => .pending
      | .ok r =>
        match Group.shutdownRun ops ctx pick n (k + 1) (todo.eraseIdx (pick k % todo.length)) r.2 with
        | .ok rest => .ok ((e.id, r.1) :: rest.1, rest.2)
        | .fault => .fault
        | .pending => .pending

/-- Method `Group.Shutdown`: one goroutine per member of the snapshot, `count`
receives, then the aggregate of what was received. -/
def Group.Shutdown {κ σ : Type} (ops : CopierOps κ σ) (ctx : Context) (pick : Nat → Nat)
    (g : Group κ) (st : σ) : Outcome (Option Error × σ) :=
  let count := g.list.length
  match Group.shutdownRun ops ctx pick count 0 g.list st with
  | .ok run => .ok (ErrorOrNil (Append none (run.1.map (fun p => p.2))), run.2)
  | .fault => .fault
  | .pending => .pending

/-- The store of `instance` objects, by address.  `next` is the first address
not handed out yet; an address never handed out holds the zero `instance`. -/
structure Heap where
  obj : Nat → State
  next : Nat

/-- The empty store. -/
def Heap.zero : Heap :=
  { obj := fun _ =>
      { c := { src := none, dst := none, done := none, written := 0, error := none },
        reads := 0, writes := 0, trace := [] },
    next := 0 }

/-- Allocate an object. -/
def Heap.alloc (s : State) (h : Heap) : Nat × Heap :=
  (h.next, { obj := Function.update h.obj h.next s, next := h.next + 1 })

/-- Run a method of `instance` on the object at an address. -/
def Heap.call {α : Type} (f : State → Outcome (α × State)) (a : Nat) (h : Heap) :
    Outcome (α × Heap) :=
  match f (h.obj a) with
  | .ok r => .ok (r.1, { h with obj := Function.update h.obj a r.2 })
  | .fault => .fault
  | .pending => .pending

/-- The `Copier` interface implemented by `*instance`, with the environment of
every call fixed: the fuel and `join` argument of `Copy`, the scheduler's
choices in `Wait`. -/
def instanceOps (fuel : Nat) (join : Option (Int × Option Error)) (sch : Sched) :
    CopierOps Nat Heap where
  New := fun dst src h => Heap.alloc (New dst src) h
  Copy := fun a h =>
    match Heap.call (fun s => match Copy fuel join s with
                              | .ok s1 => .ok ((), s1)
                              | .fault => .fault
                              | .pending => .pending) a h with
    | .ok r => .ok r.2
    | .fault => .fault
    | .pending => .pending
  Wait := fun ctx a h =>
    Heap.call (fun s => match Wait ctx sch s with
                        | .ok r => .ok (r.1, r.2.2)
                        | .fault => .fault
                        | .pending => .pending) a h
  Shutdown := fun ctx a h => Heap.call (Shutdown ctx sch) a h

/-! ## Vocabulary of the statements -/

/-- The event closes the source (either way). -/
def Event.closesSrc : Event → Bool
  | .srcCloseRead => true
  | .srcClose => true
  | _ => false

/-- The event closes the destination (either way). -/
def Event.closesDst : Event → Bool
  | .dstCloseWrite => true
  | .dstClose => true
  | _ => false

/-- The event is a `Read` on the source or a `Write` on the destination. -/
def Event.transfers : Event → Bool
  | .srcRead _ => true
  | .dstWrite _ => true
  | _ => false

/-- The bytes the destination was given, in order: the payloads of the `Write`
calls of a trace. -/
def received : List Event → List Byte
  | [] => []
  | .dstWrite p :: tr => p ++ received tr
  | _ :: tr => received tr

/-- The source delivers exactly `S` and then end-of-stream over the `n + 1`
calls of `Read` that start at call `k`: `n` reads without error, then one that
reports `EOF` (possibly together with the last bytes). -/
def yields (src : Reader) : Nat → Nat → List Byte → Prop
  | 0, k, S => (src.Read k).data = S ∧ (src.Read k).err = some Error.EOF
  | n + 1, k, S =>
    (src.Read k).err = none ∧
      ∃ rest, S = (src.Read k).data ++ rest ∧ yields src n (k + 1) rest

/-- The destination accepts every write in full and without error. -/
def accepts (dst : Writer) : Prop :=
  ∀ k p, dst.Write k p = ((p.length : Int), none)

/-- One public operation of a Copier that returns, from the state before to
the state after. -/
inductive Step : State → State → Prop where
  | closeRead (s : State) : Step s (CloseRead s).2
  | closeWrite (s : State) : Step s (CloseWrite s).2
  | close (s : State) : Step s (Close s).2
  | wait (ctx : Context) (sch : Sched) (s : State) (r : Option Error × Context × State) :
      Wait ctx sch s = .ok r → Step s r.2.2
  | shutdown (ctx : Context) (sch : Sched) (s : State) (r : Option Error × State) :
      Shutdown ctx sch s = .ok r → Step s r.2
  | copy (fuel : Nat) (join : Option (Int × Option Error)) (s s1 : State) :
      Copy fuel join s = .ok s1 → Step s s1

/-- The order in which the goroutines of `Group.Shutdown` deliver under a
scheduler: at step `k` the one at position `pick k` (modulo their number) of
those still to run. -/
def deliveryOrder {κ : Type} (pick : Nat → Nat) : Nat → Nat → List (element κ) → List (element κ)
  | 0, _, _ => []
  | n + 1, k, todo =>
    match todo[pick k % todo.length]? with
    | none => []
    | some e => e :: deliveryOrder pick n (k + 1) (todo.eraseIdx (pick k % todo.length))

/-- The members `ms`, in this order, each had `Shutdown(ctx)` called exactly
once, on the store the call before it left; `run` holds the node identities
with what the calls returned, and the last store is the one after the last
call. -/
inductive Delivered {κ σ : Type} (ops : CopierOps κ σ) (ctx : Context) :
    List (element κ) → σ → List (Nat × Option Error) → σ → Prop where
  | nil (st : σ) : Delivered ops ctx [] st [] st
  | cons (e : element κ) (ms : List (element κ)) (st : σ) (r : Option Error × σ)
      (run : List (Nat × Option Error)) (st1 : σ) :
      ops.Shutdown ctx e.Copier st = .ok r → Delivered ops ctx ms r.2 run st1 →
      Delivered ops ctx (e :: ms) st ((e.id, r.1) :: run) st1

/-- The result of `n` successive invocations of `Copy` on one Copier. -/
def CopyTimes (fuel : Nat) (join : Option (Int × Option Error)) : Nat → State → Outcome State
  | 0, s => .ok s
  | n + 1, s =>
    match Copy fuel join s with
    | .ok s1 => CopyTimes fuel join n s1
    | .fault => .fault
    | .pending => .pending

/-- What an iteration that does not panic leaves: the instance fields as they
were, and only `Read` and `Write` events added to the trace. -/
def Iter.keeps (s : State) : Iter → Prop
  | .next _ s1 => s1.c = s.c ∧ ∃ evs, s1.trace = s.trace ++ evs ∧ ∀ e ∈ evs, e.transfers = true
  | .stop _ _ s1 => s1.c = s.c ∧ ∃ evs, s1.trace = s.trace ++ evs ∧ ∀ e ∈ evs, e.transfers = true
  | .fault => True

/-! ## Concrete endpoints -/

/-- A source whose first `Read` fails with error 1; its `Close` succeeds. -/
def failingReader : Reader :=
  { Read := fun _ => { data := [], err := some (Error.other 1) },
    CloseRead := none, Close := some none }

/-- A source that delivers `1 2`, then `3`, then end-of-stream, and cannot be
closed. -/
def chunkReader : Reader :=
  { Read := fun k =>
      if k = 0 then { data := [1, 2], err := none }
      else if k = 1 then { data := [3], err := none }
      else { data := [], err := some Error.EOF },
    CloseRead := none, Close := none }

/-- A source with both close operations, each failing with its own error. -/
def halfCloseReader : Reader :=
  { Read := fun _ => { data := [], err := some Error.EOF },
    CloseRead := some (some (Error.other 2)), Close := some (some (Error.other 3)) }

/-- A destination that accepts every write; its `Close` succeeds. -/
def sink : Writer :=
  { Write := fun _ p => ((p.length : Int), none), CloseWrite := none, Close := some none }

/-- A destination with both close operations, each failing with its own
error. -/
def halfCloseWriter : Writer :=
  { Write := fun _ p => ((p.length : Int), none),
    CloseWrite := some (some (Error.other 4)), Close := some (some (Error.other 5)) }

/-- A context that was cancelled. -/
def cancelled : Context := { err := some Error.Canceled }

/-- A context that is not done. -/
def background : Context := { err := none }

/-- A scheduler under which a suspended `Wait` never wakes. -/
def idle : Sched := { pickCtx := false, wake := none }

/-- A scheduler under which the running transfer finishes cleanly after 3
bytes while `Wait` is suspended. -/
def finishing : Sched := { pickCtx := false, wake := some (Wake.finished 3 none) }

/-- A scheduler under which the goroutines of `Group.Shutdown` deliver in list
order. -/
def inOrder : Nat → Nat := fun _ => 0

/-- Two Copiers in a store: at address 0 one whose endpoints both fail to
close, at address 1 one whose endpoints close without error. -/
def twoCopiers : Heap :=
  (Heap.alloc (New sink chunkReader)
    (Heap.alloc (New halfCloseWriter halfCloseReader) Heap.zero).2).2

/-- The group with those two Copiers as members. -/
def twoMembers : Group Nat :=
  { list := [{ id := 0, Copier := 0 }, { id := 1, Copier := 1 }], next := 2 }

/-! ## Theorems -/

theorem CloseRead_src (s : State) : (CloseRead s).2.c.src = none := by
  unfold CloseRead
  cases s.c.src with
  | none => rfl
  | some v =>
    cases h1 : v.CloseRead with
    | some r => simp [h1]
    | none =>
      cases h2 : v.Close with
      | some r => simp [h1, h2]
      | none => simp [h1, h2]

theorem CloseRead_cleared (s : State) (h : s.c.src = none) : CloseRead s = (none, s) := by
  obtain ⟨⟨src, dst, done, written, error⟩, reads, writes, trace⟩ := s
  simp only at h
  subst h
  rfl

theorem CloseRead_c (s : State) : (CloseRead s).2.c = { s.c with src := none } := by
  unfold CloseRead
  cases s.c.src with
  | none => rfl
  | some v =>
    cases h1 : v.CloseRead with
    | some r => simp [h1]
    | none =>
      cases h2 : v.Close with
      | some r => simp [h1, h2]
      | none => simp [h1, h2]

theorem CloseWrite_c (s : State) : (CloseWrite s).2.c = { s.c with dst := none } := by
  unfold CloseWrite
  cases s.c.dst with
  | none => rfl
  | some v =>
    cases h1 : v.CloseWrite with
    | some r => simp [h1]
    | none =>
      cases h2 : v.Close with
      | some r => simp [h1, h2]
      | none => simp [h1, h2]

theorem CloseRead_trace (s : State) :
    ∃ evs, (CloseRead s).2.trace = s.trace ++ evs ∧ ∀ e ∈ evs, e.closesSrc = true := by
  unfold CloseRead
  cases s.c.src with
  | none => exact ⟨[], by simp⟩
  | some v =>
    cases h1 : v.CloseRead with
    | some r => exact ⟨[Event.srcCloseRead], by simp [h1, Event.closesSrc]⟩
    | none =>
      cases h2 : v.Close with
      | some r => exact ⟨[Event.srcClose], by simp [h1, h2, Event.closesSrc]⟩
      | none => exact ⟨[], by simp [h1, h2]⟩

theorem CloseWrite_trace (s : State) :
    ∃ evs, (CloseWrite s).2.trace = s.trace ++ evs ∧ ∀ e ∈ evs, e.closesDst = true := by
  unfold CloseWrite
  cases s.c.dst with
  | none => exact ⟨[], by simp⟩
  | some v =>
    cases h1 : v.CloseWrite with
    | some r => exact ⟨[Event.dstCloseWrite], by simp [h1, Event.closesDst]⟩
    | none =>
      cases h2 : v.Close with
      | some r => exact ⟨[Event.dstClose], by simp [h1, h2, Event.closesDst]⟩
      | none => exact ⟨[], by simp [h1, h2]⟩

theorem CloseRead_counts (s : State) :
    (CloseRead s).2.reads = s.reads ∧ (CloseRead s).2.writes = s.writes := by
  unfold CloseRead
  cases s.c.src with
  | none => exact ⟨rfl, rfl⟩
  | some v =>
    cases h1 : v.CloseRead with
    | some r => simp [h1]
    | none =>
      cases h2 : v.Close with
      | some r => simp [h1, h2]
      | none => simp [h1, h2]

theorem CloseWrite_counts (s : State) :
    (CloseWrite s).2.reads = s.reads ∧ (CloseWrite s).2.writes = s.writes := by
  unfold CloseWrite
  cases s.c.dst with
  | none => exact ⟨rfl, rfl⟩
  | some v =>
    cases h1 : v.CloseWrite with
    | some r => simp [h1]
    | none =>
      cases h2 : v.Close with
      | some r => simp [h1, h2]
      | none => simp [h1, h2]

theorem CloseWrite_cleared (s : State) (h : s.c.dst = none) : CloseWrite s = (none, s) := by
  obtain ⟨⟨src, dst, done, written, error⟩, reads, writes, trace⟩ := s
  simp only at h
  subst h
  rfl

theorem Close_c (s : State) : (Close s).2.c = { s.c with src := none, dst := none } := by
  simp [Close, CloseWrite_c, CloseRead_c]

theorem copyFinish_src (n : Int) (err : Option Error) (s : State) (h : s.c.src = none) :
    (copyFinish n err s).c.src = none := by
  unfold copyFinish
  cases err with
  | none => simpa using h
  | some e => simp [Close_c]

theorem copyFinish_dst (n : Int) (err : Option Error) (s : State) (h : s.c.dst = none) :
    (copyFinish n err s).c.dst = none := by
  unfold copyFinish
  cases err with
  | none => simpa using h
  | some e => simp [Close_c]

theorem copyFinish_failed (n : Int) (e : Error) (s : State) :
    (copyFinish n (some e) s).c.src = none ∧ (copyFinish n (some e) s).c.dst = none := by
  simp [copyFinish, Close_c]

theorem readCheck_keeps (er : Option Error) (w : Int) (s s1 : State)
    (h : s1.c = s.c ∧ ∃ evs, s1.trace = s.trace ++ evs ∧ ∀ e ∈ evs, e.transfers = true) :
    (readCheck er w s1).keeps s := by
  unfold readCheck
  split <;> exact h

theorem writeThrough_keeps (d : Writer) (rr : ReadResult) (w : Int) (s s1 : State)
    (h : s1.c = s.c ∧ ∃ evs, s1.trace = s.trace ++ evs ∧ ∀ e ∈ evs, e.transfers = true) :
    (writeThrough d rr w s1).keeps s := by
  obtain ⟨hc, evs, ht, he⟩ := h
  have h2 : ({ s1 with writes := s1.writes + 1, trace := s1.trace ++ [Event.dstWrite rr.data] } : State).c = s.c ∧
      ∃ evs2, ({ s1 with writes := s1.writes + 1, trace := s1.trace ++ [Event.dstWrite rr.data] } : State).trace
        = s.trace ++ evs2 ∧ ∀ e ∈ evs2, e.transfers = true := by
    refine ⟨hc, evs ++ [Event.dstWrite rr.data], by simp [ht], ?_⟩
    intro e hm
    rcases List.mem_append.1 hm with h1 | h1
    · exact he e h1
    · simp at h1; subst h1; rfl
  unfold writeThrough
  simp only
  cases (writeCheck (↑rr.data.length) (d.Write s1.writes rr.data)).2 with
  | some e => exact h2
  | none =>
    simp only
    by_cases hq : (rr.data.length : Int) = (writeCheck (↑rr.data.length) (d.Write s1.writes rr.data)).1
    · rw [if_pos hq]; exact readCheck_keeps _ _ _ _ h2
    · rw [if_neg hq]; exact h2

theorem copyStep_keeps (dst : Option Writer) (src : Option Reader) (w : Int) (s : State) :
    (copyStep dst src w s).keeps s := by
  unfold copyStep
  cases src with
  | none => trivial
  | some rd =>
    simp only
    have h1 : ({ s with reads := s.reads + 1, trace := s.trace ++ [Event.srcRead (rd.Read s.reads)] } : State).c = s.c ∧
        ∃ evs, ({ s with reads := s.reads + 1, trace := s.trace ++ [Event.srcRead (rd.Read s.reads)] } : State).trace
          = s.trace ++ evs ∧ ∀ e ∈ evs, e.transfers = true :=
      ⟨rfl, [Event.srcRead (rd.Read s.reads)], rfl, by intro e hm; simp at hm; subst hm; rfl⟩
    by_cases h0 : 0 < ((rd.Read s.reads).data.length : Int)
    · rw [if_pos h0]
      cases dst with
      | none => trivial
      | some d => exact writeThrough_keeps _ _ _ _ _ h1
    · rw [if_neg h0]; exact readCheck_keeps _ _ _ _ h1

theorem copyBuffer_keeps (dst : Option Writer) (src : Option Reader) (fuel : Nat) :
    ∀ (written : Int) (s : State) (r : Int × Option Error × State),
      copyBuffer dst src fuel written s = .ok r →
        r.2.2.c = s.c ∧ ∃ evs, r.2.2.trace = s.trace ++ evs ∧ ∀ e ∈ evs, e.transfers = true := by
  induction fuel with
  | zero => intro written s r h; simp [copyBuffer] at h
  | succ fuel ih =>
    intro written s r h
    unfold copyBuffer at h
    have hk := copyStep_keeps dst src written s
    cases hs : copyStep dst src written s with
    | next w1 s1 =>
      rw [hs] at h hk
      obtain ⟨hc, evs, ht, he⟩ := hk
      obtain ⟨hc2, evs2, ht2, he2⟩ := ih _ _ _ h
      refine ⟨hc2.trans hc, evs ++ evs2, by rw [ht2, ht, List.append_assoc], ?_⟩
      intro e hm
      rcases List.mem_append.1 hm with h1 | h1
      · exact he e h1
      · exact he2 e h1
    | stop w1 e s1 =>
      rw [hs] at h hk
      cases h
      exact hk
    | fault => rw [hs] at h; cases h

theorem Wait_cleared (ctx : Context) (sch : Sched) (s : State) (r : Option Error × Context × State)
    (h : Wait ctx sch s = .ok r) :
    (s.c.src = none → r.2.2.c.src = none) ∧ (s.c.dst = none → r.2.2.c.dst = none) := by
  unfold Wait at h
  simp only at h
  cases hd : s.c.done with
  | none => rw [hd] at h; cases h; exact ⟨id, id⟩
  | some ch =>
    rw [hd] at h
    cases ch with
    | closed =>
      simp only at h
      cases hc : ctx.err with
      | none => rw [hc] at h; cases h; exact ⟨id, id⟩
      | some e =>
        rw [hc] at h
        simp only at h
        cases hp : sch.pickCtx with
        | true => rw [hp] at h; cases h; exact ⟨id, id⟩
        | false => rw [hp] at h; cases h; exact ⟨id, id⟩
    | live =>
      simp only at h
      cases hc : ctx.err with
      | some e => rw [hc] at h; cases h; exact ⟨id, id⟩
      | none =>
        rw [hc] at h
        simp only at h
        cases hw : sch.wake with
        | none => rw [hw] at h; cases h
        | some wk =>
          rw [hw] at h
          cases wk with
          | expired e => cases h; exact ⟨id, id⟩
          | finished n err =>
            cases h
            exact ⟨fun hs => copyFinish_src _ _ _ hs, fun hs => copyFinish_dst _ _ _ hs⟩

theorem Shutdown_cleared (ctx : Context) (sch : Sched) (s : State) (r : Option Error × State)
    (h : Shutdown ctx sch s = .ok r) :
    r.2.c.src = none ∧ (s.c.dst = none → r.2.c.dst = none) := by
  unfold Shutdown at h
  simp only at h
  cases hw : Wait ctx sch (CloseRead s).2 with
  | fault => rw [hw] at h; cases h
  | pending => rw [hw] at h; cases h
  | ok w =>
    rw [hw] at h
    simp only at h
    have hcl := Wait_cleared _ _ _ _ hw
    have hsrc : w.2.2.c.src = none := hcl.1 (CloseRead_src s)
    have hdst : s.c.dst = none → w.2.2.c.dst = none := fun hd =>
      hcl.2 (by rw [CloseRead_c]; exact hd)
    cases he : w.2.1.err with
    | some e => rw [he] at h; cases h; exact ⟨hsrc, hdst⟩
    | none =>
      rw [he] at h
      cases h
      refine ⟨?_, fun _ => ?_⟩
      · rw [CloseWrite_c]; exact hsrc
      · rw [CloseWrite_c]

theorem Copy_cleared (fuel : Nat) (join : Option (Int × Option Error)) (s s1 : State)
    (h : Copy fuel join s = .ok s1) :
    (s.c.src = none → s1.c.src = none) ∧ (s.c.dst = none → s1.c.dst = none) := by
  unfold Copy at h
  cases hd : s.c.done with
  | some ch =>
    rw [hd] at h
    cases ch with
    | closed => cases h; exact ⟨id, id⟩
    | live =>
      simp only at h
      cases join with
      | none => cases h
      | some r =>
        cases h
        exact ⟨fun hs => copyFinish_src _ _ _ hs, fun hs => copyFinish_dst _ _ _ hs⟩
  | none =>
    rw [hd] at h
    simp only at h
    cases hio : ioCopy fuel (copyBegin s).c.dst (copyBegin s).c.src (copyBegin s) with
    | fault => rw [hio] at h; cases h
    | pending => rw [hio] at h; cases h
    | ok r =>
      rw [hio] at h
      cases h
      have hc : r.2.2.c = (copyBegin s).c := (copyBuffer_keeps _ _ _ _ _ _ hio).1
      constructor
      · intro hs; exact copyFinish_src _ _ _ (by rw [hc]; exact hs)
      · intro hs; exact copyFinish_dst _ _ _ (by rw [hc]; exact hs)

theorem Step_cleared (s s1 : State) (h : Step s s1) :
    (s.c.src = none → s1.c.src = none) ∧ (s.c.dst = none → s1.c.dst = none) := by
  cases h with
  | closeRead => exact ⟨fun _ => CloseRead_src s, fun hd => by rw [CloseRead_c]; exact hd⟩
  | closeWrite => exact ⟨fun hs => by rw [CloseWrite_c]; exact hs, fun _ => by rw [CloseWrite_c]⟩
  | close => exact ⟨fun _ => by rw [Close_c], fun _ => by rw [Close_c]⟩
  | wait ctx sch _ r hw => exact Wait_cleared _ _ _ _ hw
  | shutdown ctx sch _ r hw => exact ⟨fun _ => (Shutdown_cleared _ _ _ _ hw).1, (Shutdown_cleared _ _ _ _ hw).2⟩
  | copy fuel join _ _ hc => exact Copy_cleared _ _ _ _ hc

theorem Steps_cleared (s s1 : State) (h : Relation.ReflTransGen Step s s1) :
    (s.c.src = none → s1.c.src = none) ∧ (s.c.dst = none → s1.c.dst = none) := by
  induction h with
  | refl => exact ⟨id, id⟩
  | tail _ hstep ih =>
    exact ⟨fun hs => (Step_cleared _ _ hstep).1 (ih.1 hs), fun hd => (Step_cleared _ _ hstep).2 (ih.2 hd)⟩

/-- C6: with the source still set, `CloseRead` clears the reference, invokes
exactly one operation on the source, chosen by capability, and returns its
result: the source's `CloseRead` if it has one (also when it has `Close` too),
otherwise its `Close` if it has one, otherwise nothing is invoked and nil is
returned.  `CloseWrite` does the same on the destination, preferring the
destination's `CloseWrite` over its `Close`. -/
theorem close_by_capability (s : State) :
    (∀ v, s.c.src = some v →
      (∀ r, v.CloseRead = some r →
        CloseRead s = (r, { s with c := { s.c with src := none },
                                   trace := s.trace ++ [Event.srcCloseRead] })) ∧
      (∀ r, v.CloseRead = none → v.Close = some r →
        CloseRead s = (r, { s with c := { s.c with src := none },
                                   trace := s.trace ++ [Event.srcClose] })) ∧
      (v.CloseRead = none → v.Close = none →
        CloseRead s = (none, { s with c := { s.c with src := none } }))) ∧
    (∀ v, s.c.dst = some v →
      (∀ r, v.CloseWrite = some r →
        CloseWrite s = (r, { s with c := { s.c with dst := none },
                                    trace := s.trace ++ [Event.dstCloseWrite] })) ∧
      (∀ r, v.CloseWrite = none → v.Close = some r →
        CloseWrite s = (r, { s with c := { s.c with dst := none },
                                    trace := s.trace ++ [Event.dstClose] })) ∧
      (v.CloseWrite = none → v.Close = none →
        CloseWrite s = (none, { s with c := { s.c with dst := none } }))) := by
  constructor
  · intro v hv
    refine ⟨?_, ?_, ?_⟩
    · intro r h1; simp [CloseRead, hv, h1]
    · intro r h1 h2; simp [CloseRead, hv, h1, h2]
    · intro h1 h2; simp [CloseRead, hv, h1, h2]
  · intro v hv
    refine ⟨?_, ?_, ?_⟩
    · intro r h1; simp [CloseWrite, hv, h1]
    · intro r h1 h2; simp [CloseWrite, hv, h1, h2]
    · intro h1 h2; simp [CloseWrite, hv, h1, h2]

/-- C6 at concrete endpoints: a source with both operations gets `CloseRead`
(error 2 comes back, not error 3), a destination with only `Close` gets
`Close`. -/
theorem close_by_capability_witness :
    CloseRead (New sink halfCloseReader) =
      (some (Error.other 2),
        { New sink halfCloseReader with
          c := { (New sink halfCloseReader).c with src := none },
          trace := [Event.srcCloseRead] }) ∧
    CloseWrite (New sink halfCloseReader) =
      (none,
        { New sink halfCloseReader with
          c := { (New sink halfCloseReader).c with dst := none },
          trace := [Event.dstClose] }) :=
  ⟨((close_by_capability (New sink halfCloseReader)).1 halfCloseReader rfl).1 _ rfl,
   ((close_by_capability (New sink halfCloseReader)).2 sink rfl).2.1 _ rfl rfl⟩

/-- C5: `CloseRead` clears the source and `CloseWrite` the destination whatever
they return, so does `Shutdown` (the source) and the eager close of a failed
`Copy` (both); no public operation that returns sets a cleared reference
again; and on a cleared reference `CloseRead` (resp. `CloseWrite`) returns
nil, invokes nothing and leaves the state as it is. -/
theorem close_idempotent :
    (∀ s, (CloseRead s).2.c.src = none ∧ (CloseWrite s).2.c.dst = none) ∧
    (∀ ctx sch s r, Shutdown ctx sch s = .ok r → r.2.c.src = none) ∧
    (∀ n e s, (copyFinish n (some e) s).c.src = none ∧ (copyFinish n (some e) s).c.dst = none) ∧
    (∀ s s1, Relation.ReflTransGen Step s s1 →
      (s.c.src = none → s1.c.src = none ∧ CloseRead s1 = (none, s1)) ∧
      (s.c.dst = none → s1.c.dst = none ∧ CloseWrite s1 = (none, s1))) := by
  refine ⟨fun s => ⟨CloseRead_src s, by rw [CloseWrite_c]⟩,
    fun ctx sch s r h => (Shutdown_cleared ctx sch s r h).1,
    fun n e s => copyFinish_failed n e s, ?_⟩
  intro s s1 h
  have hc := Steps_cleared s s1 h
  exact ⟨fun hs => ⟨hc.1 hs, CloseRead_cleared s1 (hc.1 hs)⟩,
    fun hd => ⟨hc.2 hd, CloseWrite_cleared s1 (hc.2 hd)⟩⟩

/-- C5 at a concrete Copier: the first `CloseRead` fails with error 2, a
`CloseWrite` follows, and the second `CloseRead` returns nil and changes
nothing. -/
theorem close_idempotent_witness :
    (CloseRead (New halfCloseWriter halfCloseReader)).1 = some (Error.other 2) ∧
    CloseRead (CloseWrite (CloseRead (New halfCloseWriter halfCloseReader)).2).2 =
      (none, (CloseWrite (CloseRead (New halfCloseWriter halfCloseReader)).2).2) :=
  ⟨rfl,
   ((close_idempotent.2.2.2 (CloseRead (New halfCloseWriter halfCloseReader)).2
      (CloseWrite (CloseRead (New halfCloseWriter halfCloseReader)).2).2
      (Relation.ReflTransGen.single (Step.closeWrite _))).1 rfl).2⟩

/-- C3: with a context that is already done, in every state of the Copier and
under every choice of the scheduler, `Shutdown` returns the context's error
itself and ends in the state `CloseRead` left, with only the mark of the wait
added to the trace: the source reference is cleared, the destination
reference is the one before the call, and no operation was invoked on the
destination. -/
theorem Shutdown_ctx_done (s : State) (ctx : Context) (sch : Sched) (e : Error)
    (h : ctx.err = some e) :
    ∃ s1, Shutdown ctx sch s = .ok (some e, s1) ∧
      s1 = { (CloseRead s).2 with trace := (CloseRead s).2.trace ++ [Event.wait] } ∧
      s1.c.src = none ∧ s1.c.dst = s.c.dst ∧
      (∃ evs, s1.trace = s.trace ++ evs ++ [Event.wait] ∧ ∀ ev ∈ evs, ev.closesSrc = true) ∧
      ∀ ev ∈ s1.trace.drop s.trace.length, ev.closesDst = false := by
  refine ⟨{ (CloseRead s).2 with trace := (CloseRead s).2.trace ++ [Event.wait] },
    ?_, rfl, ?_, ?_, ?_, ?_⟩
  · unfold Shutdown Wait
    simp only
    cases hd : (CloseRead s).2.c.done with
    | none => simp [h]
    | some ch =>
      cases ch with
      | closed =>
        cases hp : sch.pickCtx with
        | true => simp [h, hp]
        | false => simp [h, hp]
      | live => simp [h]
  · exact CloseRead_src s
  · show (CloseRead s).2.c.dst = s.c.dst
    rw [CloseRead_c]
  · obtain ⟨evs, ht, he⟩ := CloseRead_trace s
    exact ⟨evs, by simp [ht], he⟩
  · obtain ⟨evs, ht, he⟩ := CloseRead_trace s
    intro ev hev
    have hd : ({ (CloseRead s).2 with trace := (CloseRead s).2.trace ++ [Event.wait] } : State).trace
        = s.trace ++ (evs ++ [Event.wait]) := by simp [ht]
    rw [hd, List.drop_left] at hev
    rcases List.mem_append.1 hev with h1 | h1
    · have := he ev h1
      cases ev <;> simp_all [Event.closesSrc, Event.closesDst]
    · simp at h1; subst h1; rfl

/-- C3 at a concrete Copier: a running transfer, a cancelled context. -/
theorem Shutdown_ctx_done_witness :
    Shutdown cancelled idle (copyBegin (New halfCloseWriter halfCloseReader)) =
      .ok (some Error.Canceled,
        { c := { src := none, dst := some halfCloseWriter, done := some Chan.live,
                 written := 0, error := none },
          reads := 0, writes := 0, trace := [Event.srcCloseRead, Event.wait] }) := by
  obtain ⟨s1, h1, h2, -⟩ :=
    Shutdown_ctx_done (copyBegin (New halfCloseWriter halfCloseReader)) cancelled idle
      Error.Canceled rfl
  rw [h1, h2]
  rfl

theorem copyFinish_trace (n : Int) (err : Option Error) (s : State) (h : s.c.src = none) :
    ∃ evs, (copyFinish n err s).trace = s.trace ++ evs ∧ ∀ e ∈ evs, e.closesDst = true := by
  unfold copyFinish
  cases err with
  | none => exact ⟨[], by simp⟩
  | some e =>
    simp only [Close]
    rw [CloseRead_cleared _ (show ({ s with c := { s.c with written := n, error := some e } } : State).c.src = none from h)]
    obtain ⟨evs, ht, he⟩ := CloseWrite_trace { s with c := { s.c with written := n, error := some e } }
    exact ⟨evs, ht, he⟩

theorem copyFinish_counts (n : Int) (err : Option Error) (s : State) :
    (copyFinish n err s).reads = s.reads ∧ (copyFinish n err s).writes = s.writes := by
  unfold copyFinish
  cases err with
  | none => exact ⟨rfl, rfl⟩
  | some e =>
    simp only [Close]
    exact ⟨((CloseWrite_counts _).1.trans (CloseRead_counts _).1),
      ((CloseWrite_counts _).2.trans (CloseRead_counts _).2)⟩

/-- A `Wait` that returns with the context still live returned nil, and the
state is the one it was entered in (marked), or that state after the running
transfer has finished. -/
theorem Wait_live (ctx : Context) (sch : Sched) (s : State) (w : Option Error × Context × State)
    (h : Wait ctx sch s = .ok w) (hl : w.2.1.err = none) :
    w.1 = none ∧
      (w.2.2 = { s with trace := s.trace ++ [Event.wait] } ∨
        ∃ n err, w.2.2 = copyFinish n err { s with trace := s.trace ++ [Event.wait] }) := by
  unfold Wait at h
  simp only at h
  cases hd : s.c.done with
  | none => rw [hd] at h; cases h; exact ⟨rfl, Or.inl rfl⟩
  | some ch =>
    rw [hd] at h
    cases ch with
    | closed =>
      simp only at h
      cases hc : ctx.err with
      | none => rw [hc] at h; cases h; exact ⟨rfl, Or.inl rfl⟩
      | some e =>
        rw [hc] at h
        simp only at h
        cases hp : sch.pickCtx with
        | true => rw [hp] at h; cases h; simp [hc] at hl
        | false => rw [hp] at h; cases h; exact ⟨rfl, Or.inl rfl⟩
    | live =>
      simp only at h
      cases hc : ctx.err with
      | some e => rw [hc] at h; cases h; simp [hc] at hl
      | none =>
        rw [hc] at h
        simp only at h
        cases hw : sch.wake with
        | none => rw [hw] at h; cases h
        | some wk =>
          rw [hw] at h
          cases wk with
          | expired e => cases h; simp at hl
          | finished n err => cases h; exact ⟨rfl, Or.inr ⟨n, err, rfl⟩⟩

theorem ErrorOrNil_eq_none (l : List Error) : ErrorOrNil l = none ↔ l = [] := by
  cases l <;> simp [ErrorOrNil]

theorem ErrorOrNil_causes (l : List Error) (agg : Error) (h : ErrorOrNil l = some agg) :
    agg.causes = l := by
  cases l with
  | nil => simp [ErrorOrNil] at h
  | cons a t => simp [ErrorOrNil] at h; subst h; rfl

theorem reduceOption_nil_iff (l : List (Option Error)) :
    l.reduceOption = [] ↔ ∀ x ∈ l, x = none := by
  induction l with
  | nil => simp
  | cons a t ih =>
    cases a with
    | none => simp [List.reduceOption_cons_of_none, ih]
    | some v => simp [List.reduceOption_cons_of_some]

/-- The contract of the aggregation helper: the result is absent iff every
input is absent, and otherwise exposes every input that is present. -/
theorem aggregate_spec (err : Option Error) (errs : List (Option Error)) :
    (ErrorOrNil (Append err errs) = none ↔ ∀ x ∈ err :: errs, x = none) ∧
    (∀ e, some e ∈ err :: errs →
      ∃ agg, ErrorOrNil (Append err errs) = some agg ∧ e ∈ agg.causes) := by
  constructor
  · rw [ErrorOrNil_eq_none, Append, reduceOption_nil_iff]
  · intro e he
    have hm : e ∈ Append err errs := by
      rw [Append, List.reduceOption_mem_iff]; exact he
    cases hagg : ErrorOrNil (Append err errs) with
    | none => rw [(ErrorOrNil_eq_none _).1 hagg] at hm; cases hm
    | some agg => exact ⟨agg, rfl, by rw [ErrorOrNil_causes _ _ hagg]; exact hm⟩

/-- C4: when the `Wait` inside `Shutdown` returns and the context is not done
at that point, `Shutdown` returns, having run `CloseRead`, then `Wait`, then
`CloseWrite` on the state each one left, and its result is the aggregate of the
three errors: nil iff all three are nil, and otherwise it exposes every one
that is not.  Both endpoint references are cleared at the end, and in the
trace every closing of the source precedes the wait, which precedes every
closing of the destination. -/
theorem Shutdown_ctx_live (s : State) (ctx : Context) (sch : Sched)
    (w : Option Error × Context × State)
    (hw : Wait ctx sch (CloseRead s).2 = .ok w) (hl : w.2.1.err = none) :
    Shutdown ctx sch s =
      .ok (ErrorOrNil (Append (CloseRead s).1 [w.1, (CloseWrite w.2.2).1]),
           (CloseWrite w.2.2).2) ∧
    (ErrorOrNil (Append (CloseRead s).1 [w.1, (CloseWrite w.2.2).1]) = none ↔
      (CloseRead s).1 = none ∧ w.1 = none ∧ (CloseWrite w.2.2).1 = none) ∧
    (∀ e, (CloseRead s).1 = some e ∨ w.1 = some e ∨ (CloseWrite w.2.2).1 = some e →
      ∃ agg, ErrorOrNil (Append (CloseRead s).1 [w.1, (CloseWrite w.2.2).1]) = some agg ∧
        e ∈ agg.causes) ∧
    (CloseWrite w.2.2).2.c.src = none ∧ (CloseWrite w.2.2).2.c.dst = none ∧
    ∃ pre post, (CloseWrite w.2.2).2.trace = s.trace ++ pre ++ [Event.wait] ++ post ∧
      (∀ ev ∈ pre, ev.closesSrc = true) ∧ (∀ ev ∈ post, ev.closesDst = true) := by
  have hagg := aggregate_spec (CloseRead s).1 [w.1, (CloseWrite w.2.2).1]
  have hsrc : w.2.2.c.src = none := (Wait_cleared _ _ _ _ hw).1 (CloseRead_src s)
  refine ⟨?_, ?_, ?_, ?_, ?_, ?_⟩
  · unfold Shutdown
    simp only [hw, hl]
  · rw [hagg.1]; simp
  · intro e he
    apply hagg.2
    rcases he with h | h | h
    · simp [h]
    · simp [h]
    · simp [h]
  · rw [CloseWrite_c]; exact hsrc
  · rw [CloseWrite_c]
  · obtain ⟨pre, hpre, hpre2⟩ := CloseRead_trace s
    obtain ⟨post, hpost, hpost2⟩ := CloseWrite_trace w.2.2
    rcases (Wait_live _ _ _ _ hw hl).2 with h | ⟨n, err, h⟩
    · refine ⟨pre, post, ?_, hpre2, hpost2⟩
      rw [hpost, h, hpre]
    · obtain ⟨mid, hmid, hmid2⟩ :=
        copyFinish_trace n err { (CloseRead s).2 with trace := (CloseRead s).2.trace ++ [Event.wait] }
          (CloseRead_src s)
      refine ⟨pre, mid ++ post, ?_, hpre2, ?_⟩
      · rw [hpost, h, hmid, hpre]; simp
      · intro ev hev
        rcases List.mem_append.1 hev with h1 | h1
        · exact hmid2 ev h1
        · exact hpost2 ev h1

/-- C4 at a concrete Copier: the transfer is running, the context is live, the
transfer finishes cleanly during the wait and the destination's `Close`
succeeds; `Shutdown` returns nil with both references cleared. -/
theorem Shutdown_ctx_live_witness :
    Shutdown background finishing (copyBegin (New sink chunkReader)) =
      .ok (none,
        { c := { src := none, dst := none, done := some Chan.closed, written := 3,
                 error := none },
          reads := 0, writes := 0, trace := [Event.wait, Event.dstClose] }) :=
  (Shutdown_ctx_live (copyBegin (New sink chunkReader)) background finishing
    (none, background,
      copyFinish 3 none
        { (CloseRead (copyBegin (New sink chunkReader))).2 with trace := [Event.wait] })
    rfl rfl).1.trans rfl

theorem received_append (a b : List Event) : received (a ++ b) = received a ++ received b := by
  induction a with
  | nil => rfl
  | cons e t ih =>
    cases e <;> simp [received, ih]

theorem writeCheck_full (p : List Byte) :
    writeCheck (p.length : Int) ((p.length : Int), none) = ((p.length : Int), none) := by
  unfold writeCheck
  rw [if_neg]
  simp

/-- One iteration against a destination that accepts every write. -/
theorem copyStep_accepts (dst : Writer) (src : Reader) (hdst : accepts dst) (w : Int) (s : State) :
    copyStep (some dst) (some src) w s =
      readCheck (src.Read s.reads).err (w + ((src.Read s.reads).data.length : Int))
        { s with
          reads := s.reads + 1,
          writes := if (src.Read s.reads).data = [] then s.writes else s.writes + 1,
          trace := s.trace ++ Event.srcRead (src.Read s.reads) ::
            (if (src.Read s.reads).data = [] then []
             else [Event.dstWrite (src.Read s.reads).data]) } := by
  unfold copyStep
  simp only
  by_cases h0 : 0 < ((src.Read s.reads).data.length : Int)
  · have hne : (src.Read s.reads).data ≠ [] := by
      intro h; rw [h] at h0; simp at h0
    rw [if_pos h0]
    simp only [writeThrough, hdst _ _, writeCheck_full, if_true, if_neg hne]
    simp
  · have he : (src.Read s.reads).data = [] := by
      cases hd : (src.Read s.reads).data with
      | nil => rfl
      | cons a t => rw [hd] at h0; simp at h0
    rw [if_neg h0]
    simp [he]

/-- The loop on a source that delivers `S` and then end-of-stream in `n + 1`
reads, with more than `n` iterations allowed. -/
theorem copyBuffer_yields (dst : Writer) (src : Reader) (hdst : accepts dst) (n : Nat) :
    ∀ (extra : Nat) (S : List Byte) (w : Int) (s : State), yields src n s.reads S →
      ∃ s1, copyBuffer (some dst) (some src) (n + 1 + extra) w s = .ok (w + S.length, none, s1) ∧
        s1.c = s.c ∧ received s1.trace = received s.trace ++ S := by
  induction n with
  | zero =>
    intro extra S w s hy
    obtain ⟨hdata, herr⟩ := hy
    rw [show 0 + 1 + extra = extra + 1 by omega]
    unfold copyBuffer
    rw [copyStep_accepts dst src hdst, herr, hdata]
    simp only [readCheck]
    refine ⟨_, rfl, rfl, ?_⟩
    by_cases hS : S = []
    · simp [hS, received_append, received]
    · simp [hS, received_append, received]
  | succ n ih =>
    intro extra S w s hy
    obtain ⟨herr, rest, hS, hrest⟩ := hy
    rw [show n + 1 + 1 + extra = (n + 1 + extra) + 1 by omega]
    unfold copyBuffer
    rw [copyStep_accepts dst src hdst, herr]
    simp only [readCheck]
    obtain ⟨s1, h1, hc, hr⟩ := ih extra rest (w + ((src.Read s.reads).data.length : Int))
      { s with
          reads := s.reads + 1,
          writes := if (src.Read s.reads).data = [] then s.writes else s.writes + 1,
          trace := s.trace ++ Event.srcRead (src.Read s.reads) ::
            (if (src.Read s.reads).data = [] then []
             else [Event.dstWrite (src.Read s.reads).data]) } hrest
    refine ⟨s1, ?_, hc, ?_⟩
    · rw [h1, hS]; simp [Int.add_assoc]
    · rw [hr, hS]
      by_cases hd : (src.Read s.reads).data = []
      · simp [hd, received_append, received]
      · simp [hd, received_append, received]

/-- C2: a fresh Copier whose source delivers the bytes `S` and then reports
the end of the stream (in `n + 1` reads, however chunked) and whose destination
accepts every write: with more than `n` iterations allowed, `Copy` returns, and then
`Written()` is the length of `S`, `Err()` is nil, the completion signal has
fired and the bytes the destination was given are `S`, in order. -/
theorem Copy_end_to_end (dst : Writer) (src : Reader) (S : List Byte) (n fuel : Nat)
    (join : Option (Int × Option Error))
    (hsrc : yields src n 0 S) (hdst : accepts dst) (hfuel : n < fuel) :
    ∃ s, Copy fuel join (New dst src) = .ok s ∧
      Written s = (S.length : Int) ∧ Err s = none ∧ received s.trace = S ∧
      s.c.done = some Chan.closed := by
  obtain ⟨extra, rfl⟩ : ∃ extra, fuel = n + 1 + extra := ⟨fuel - (n + 1), by omega⟩
  obtain ⟨s1, h1, hc, hr⟩ := copyBuffer_yields dst src hdst n extra S 0 (copyBegin (New dst src)) hsrc
  refine ⟨copyFinish (0 + (S.length : Int)) none s1, ?_, ?_, ?_, ?_, ?_⟩
  · have hio : ioCopy (n + 1 + extra) (copyBegin (New dst src)).c.dst (copyBegin (New dst src)).c.src
        (copyBegin (New dst src)) = .ok (0 + (S.length : Int), none, s1) := h1
    have hd : (New dst src).c.done = none := rfl
    unfold Copy
    rw [hd]
    simp only [hio]
  · simp [Written, copyFinish]
  · simp [Err, copyFinish]
  · simpa [copyFinish, copyBegin, New, received] using hr
  · simp [copyFinish]

/-- C2 at a concrete Copier: the bytes `1 2 3` in two chunks. -/
theorem Copy_end_to_end_witness :
    ∃ s, Copy 3 none (New sink chunkReader) = .ok s ∧
      Written s = 3 ∧ Err s = none ∧ received s.trace = [1, 2, 3] ∧
      s.c.done = some Chan.closed :=
  Copy_end_to_end sink chunkReader [1, 2, 3] 2 3 none
    ⟨rfl, [3], rfl, rfl, [], rfl, rfl, rfl⟩ (fun _ _ => rfl) (by decide)

theorem Copy_closed (fuel : Nat) (join : Option (Int × Option Error)) (s : State)
    (h : s.c.done = some Chan.closed) : Copy fuel join s = .ok s := by
  unfold Copy
  rw [h]

theorem copyFinish_done (n : Int) (err : Option Error) (s : State) :
    (copyFinish n err s).c.done = some Chan.closed := by
  simp [copyFinish]

theorem Copy_first_done (fuel : Nat) (join : Option (Int × Option Error)) (s s1 : State)
    (hd : s.c.done = none) (h : Copy fuel join s = .ok s1) : s1.c.done = some Chan.closed := by
  unfold Copy at h
  rw [hd] at h
  simp only at h
  cases hio : ioCopy fuel (copyBegin s).c.dst (copyBegin s).c.src (copyBegin s) with
  | fault => rw [hio] at h; cases h
  | pending => rw [hio] at h; cases h
  | ok r => rw [hio] at h; cases h; exact copyFinish_done _ _ _

theorem CopyTimes_closed (fuel : Nat) (join : Option (Int × Option Error)) (k : Nat) :
    ∀ s : State, s.c.done = some Chan.closed → CopyTimes fuel join k s = .ok s := by
  induction k with
  | zero => intro s _; rfl
  | succ k ih =>
    intro s h
    unfold CopyTimes
    rw [Copy_closed fuel join s h]
    exact ih s h

theorem copyFinish_transfers (n : Int) (err : Option Error) (s : State) :
    ∃ evs, (copyFinish n err s).trace = s.trace ++ evs ∧ ∀ e ∈ evs, e.transfers = false := by
  unfold copyFinish
  cases err with
  | none => exact ⟨[], by simp⟩
  | some e =>
    simp only [Close]
    obtain ⟨a, ha, ha2⟩ := CloseRead_trace { s with c := { s.c with written := n, error := some e } }
    obtain ⟨b, hb, hb2⟩ :=
      CloseWrite_trace (CloseRead { s with c := { s.c with written := n, error := some e } }).2
    refine ⟨a ++ b, ?_, ?_⟩
    · show (CloseWrite (CloseRead _).2).2.trace = _
      rw [hb, ha]; simp
    · intro ev hev
      rcases List.mem_append.1 hev with h1 | h1
      · have := ha2 ev h1
        cases ev <;> simp_all [Event.closesSrc, Event.transfers]
      · have := hb2 ev h1
        cases ev <;> simp_all [Event.closesDst, Event.transfers]

/-- C7: once the completion signal has fired, `Copy` returns at once and leaves
the whole state, trace included, as it is.  While the signal exists but has
not fired, `Copy` only waits: what it returns with is exactly what the running
invocation leaves when it finishes, with no `Read` or `Write` added.  The first
invocation that returns leaves the signal fired.  Hence any number `k + 1` of
successive invocations on a Copier that was never started ends like the first
one alone. -/
theorem Copy_once (fuel : Nat) (join : Option (Int × Option Error)) :
    (∀ s, s.c.done = some Chan.closed → Copy fuel join s = .ok s) ∧
    (∀ s n err, s.c.done = some Chan.live →
      Copy fuel (some (n, err)) s = .ok (copyFinish n err s) ∧
      (copyFinish n err s).reads = s.reads ∧ (copyFinish n err s).writes = s.writes ∧
      ∃ evs, (copyFinish n err s).trace = s.trace ++ evs ∧ ∀ e ∈ evs, e.transfers = false) ∧
    (∀ s s1, s.c.done = none → Copy fuel join s = .ok s1 → s1.c.done = some Chan.closed) ∧
    (∀ s k, s.c.done = none → CopyTimes fuel join (k + 1) s = Copy fuel join s) := by
  refine ⟨Copy_closed fuel join, ?_, Copy_first_done fuel join, ?_⟩
  · intro s n err h
    refine ⟨?_, (copyFinish_counts n err s).1, (copyFinish_counts n err s).2,
      copyFinish_transfers n err s⟩
    unfold Copy
    rw [h]
  · intro s k hd
    unfold CopyTimes
    cases hc : Copy fuel join s with
    | ok s1 => exact CopyTimes_closed fuel join k s1 (Copy_first_done fuel join s s1 hd hc)
    | fault => rfl
    | pending => rfl

/-- C7 at a concrete Copier: five invocations end like one, and the source was
read three times in all. -/
theorem Copy_once_witness :
    CopyTimes 3 none 5 (New sink chunkReader) = Copy 3 none (New sink chunkReader) ∧
    ∃ s, CopyTimes 3 none 5 (New sink chunkReader) = .ok s ∧ s.reads = 3 ∧ s.writes = 2 :=
  ⟨(Copy_once 3 none).2.2.2 (New sink chunkReader) 4 rfl, _, rfl, rfl, rfl⟩

/-- C1 (the code at the failing input): the source's first `Read` fails with
error 1, both endpoints close without error, and after `Copy` has returned
`Err()` is nil.  In general the error recorded after a failed transfer is the
result of `Close` alone, which aggregates the two close results: the transfer
error is overwritten. -/
theorem Copy_failed_Err_nil :
    (∃ s, Copy 1 none (New sink failingReader) = .ok s ∧ Err s = none ∧
      s.c.done = some Chan.closed ∧
      s.trace = [Event.srcRead { data := [], err := some (Error.other 1) },
                 Event.srcClose, Event.dstClose]) ∧
    (∀ (n : Int) (e : Error) (s : State),
      Err (copyFinish n (some e) s) =
        ErrorOrNil (Append none
          [(CloseRead { s with c := { s.c with written := n, error := some e } }).1,
           (CloseWrite
              (CloseRead { s with c := { s.c with written := n, error := some e } }).2).1])) :=
  ⟨⟨_, rfl, rfl, rfl, rfl⟩, fun _ _ _ => rfl⟩

theorem Copy_nil_src (fuel : Nat) (join : Option (Int × Option Error)) (s : State)
    (hd : s.c.done = none) (hs : s.c.src = none) : Copy (fuel + 1) join s = .fault := by
  have h1 : (copyBegin s).c.src = none := hs
  unfold Copy
  rw [hd]
  simp only [ioCopy, h1, copyBuffer, copyStep]

/-- C10 (the code at the failing input): after `CloseRead` the source
reference is nil, and the first `Copy` panics in `io.Copy` on the call of
`Read`; it neither returns nor fires the completion signal.  This is so for
every pair of endpoints. -/
theorem Copy_after_CloseRead_faults :
    Copy 1 none (CloseRead (New sink chunkReader)).2 = .fault ∧
    (∀ (dst : Writer) (src : Reader) (fuel : Nat) (join : Option (Int × Option Error)),
      Copy (fuel + 1) join (CloseRead (New dst src)).2 = .fault) := by
  refine ⟨rfl, ?_⟩
  intro dst src fuel join
  apply Copy_nil_src
  · rw [CloseRead_c]; rfl
  · exact CloseRead_src _

theorem eraseP_id_eq_filter {κ : Type} (id : Nat) :
    ∀ l : List (element κ), (l.map (fun e => e.id)).Nodup →
      l.eraseP (fun e => e.id == id) = l.filter (fun e => e.id != id) := by
  intro l
  induction l with
  | nil => intro _; rfl
  | cons a t ih =>
    intro hn
    rw [List.map_cons, List.nodup_cons] at hn
    by_cases ha : a.id = id
    · have hnot : ∀ e ∈ t, (e.id != id) = true := by
        intro e he
        have : e.id ≠ a.id := fun h => hn.1 (by rw [← h]; exact List.mem_map_of_mem _ he)
        simp [← ha, this]
      rw [List.eraseP_cons_of_pos (by simp [ha]), List.filter_cons_of_neg (by simp [ha]),
        List.filter_eq_self.2 hnot]
    · rw [List.eraseP_cons_of_neg (by simp [ha]), List.filter_cons_of_pos (by simp [ha]), ih hn.2]

theorem PushBack_wf {κ : Type} (c : κ) (g : Group κ) (h : g.wf) : (Group.PushBack c g).2.wf := by
  obtain ⟨hn, hlt⟩ := h
  constructor
  · simp only [Group.PushBack, List.map_append, List.map_cons, List.map_nil]
    rw [List.nodup_append]
    refine ⟨hn, List.nodup_singleton _, ?_⟩
    intro x hx hx2
    simp at hx2
    obtain ⟨e, he, rfl⟩ := List.mem_map.1 hx
    have := hlt e he
    omega
  · intro e he
    simp only [Group.PushBack, List.mem_append, List.mem_singleton] at he
    rcases he with he | rfl
    · have := hlt e he
      show e.id < g.next + 1
      omega
    · show g.next < g.next + 1
      omega

theorem Remove_wf {κ : Type} (id : Nat) (g : Group κ) (h : g.wf) : (Group.Remove id g).wf := by
  obtain ⟨hn, hlt⟩ := h
  constructor
  · show ((g.list.eraseP _).map _).Nodup
    rw [eraseP_id_eq_filter id g.list hn]
    exact (List.Sublist.map _ (List.filter_sublist _)).nodup hn
  · intro e he
    exact hlt e (List.mem_of_mem_eraseP he)

theorem Remove_PushBack {κ : Type} (c : κ) (g : Group κ) (h : g.wf) :
    Group.Remove (Group.PushBack c g).1 (Group.PushBack c g).2 = { g with next := g.next + 1 } := by
  obtain ⟨hn, hlt⟩ := h
  simp only [Group.Remove, Group.PushBack]
  rw [List.eraseP_append_right]
  · simp
  · intro e he
    have := hlt e he
    simp
    omega

/-- C9: `element.Copy` is exactly this: push one node for the member at the
back of the list, with a fresh identity, then run the wrapped `Copy`, then
remove that node when the wrapped `Copy` returns, whatever error the transfer
recorded, and also when it panics; while the wrapped `Copy` has not returned the
node is in the list, at the back.  Removing an identity from a well-formed
list (the list may have changed meanwhile) takes out exactly the node that
carries it and keeps all other nodes in their order, so on a well-formed group
the list after the run is the list before it.  `Group.Wait` reads the front of
the list anew in every iteration: on an empty list it returns nil at once,
whatever the context; it returns the first error a wait reports; after a wait
that returned nil it goes on with the list as the members' goroutines left it,
and returns nil once the last node has been removed.  `AddCopier` hands the
Copier to `element.Copy`, and `Add` is `AddCopier` of a new Copier. -/
theorem element_Copy_membership {κ σ : Type} (ops : CopierOps κ σ) (c : κ) (g : Group κ)
    (st : σ) :
    ((Group.PushBack c g).1 = g.next ∧
      (Group.PushBack c g).2.list = g.list ++ [{ id := g.next, Copier := c }] ∧
      (g.wf → (∀ e ∈ g.list, e.id ≠ g.next) ∧ (Group.PushBack c g).2.wf)) ∧
    (∀ g1 : Group κ, g1.wf →
      (Group.Remove g.next g1).list = g1.list.filter (fun e => e.id != g.next) ∧
      (∀ e ∈ (Group.Remove g.next g1).list, e.id ≠ g.next) ∧
      ((∃ e ∈ g1.list, e.id = g.next) →
        (Group.Remove g.next g1).list.length + 1 = g1.list.length) ∧
      (Group.Remove g.next g1).wf) ∧
    ((∀ st1, ops.Copy c st = .ok st1 →
        element.Copy ops c g st =
          (.ok st1, Group.Remove (Group.PushBack c g).1 (Group.PushBack c g).2)) ∧
      (ops.Copy c st = .fault →
        element.Copy ops c g st =
          (.fault, Group.Remove (Group.PushBack c g).1 (Group.PushBack c g).2)) ∧
      (ops.Copy c st = .pending →
        element.Copy ops c g st =
          (.pending, { list := g.list ++ [{ id := g.next, Copier := c }], next := g.next + 1 }))) ∧
    (g.wf →
      Group.Remove (Group.PushBack c g).1 (Group.PushBack c g).2 = { g with next := g.next + 1 } ∧
      (∀ st1, ops.Copy c st = .ok st1 →
        element.Copy ops c g st = (.ok st1, { g with next := g.next + 1 })) ∧
      (ops.Copy c st = .fault →
        element.Copy ops c g st = (.fault, { g with next := g.next + 1 }))) ∧
    ((∀ (ctx : Context) (env : Nat → List (ListAct κ)) (fuel i : Nat) (g0 : Group κ) (st0 : σ),
        g0.list = [] → Group.Wait ops ctx env (fuel + 1) i g0 st0 = .ok (none, st0)) ∧
      (∀ (ctx : Context) (env : Nat → List (ListAct κ)) (fuel i : Nat) (g0 : Group κ) (st0 st1 : σ)
          (front : element κ) (err : Error),
        g0.list.head? = some front → ops.Wait ctx front.Copier st0 = .ok (some err, st1) →
        Group.Wait ops ctx env (fuel + 1) i g0 st0 = .ok (some err, st1)) ∧
      (∀ (ctx : Context) (env : Nat → List (ListAct κ)) (fuel i : Nat) (g0 : Group κ) (st0 st1 : σ)
          (front : element κ),
        g0.list.head? = some front → ops.Wait ctx front.Copier st0 = .ok (none, st1) →
        Group.Wait ops ctx env (fuel + 1) i g0 st0 =
          Group.Wait ops ctx env fuel (i + 1) (Group.acts (env i) g0) st1) ∧
      (∀ (ctx : Context) (env : Nat → List (ListAct κ)) (fuel i : Nat) (g0 : Group κ) (st0 st1 : σ)
          (front : element κ),
        g0.list = [front] → ops.Wait ctx front.Copier st0 = .ok (none, st1) →
        env i = [ListAct.remove front.id] →
        Group.Wait ops ctx env (fuel + 2) i g0 st0 = .ok (none, st1))) ∧
    ((∀ g0 : Group κ, Group.acts [] g0 = g0) ∧
      (∀ (c1 : κ) (rest : List (ListAct κ)) (g0 : Group κ),
        Group.acts (ListAct.push c1 :: rest) g0 = Group.acts rest (Group.PushBack c1 g0).2) ∧
      (∀ (id : Nat) (rest : List (ListAct κ)) (g0 : Group κ),
        Group.acts (ListAct.remove id :: rest) g0 = Group.acts rest (Group.Remove id g0)) ∧
      (∀ (id : Nat) (g0 : Group κ), (Group.Remove id g0).next = g0.next)) ∧
    (Group.AddCopier ops c g st = (c, element.Copy ops c g st) ∧
      ∀ (dst : Writer) (src : Reader),
        Group.Add ops dst src g st =
          Group.AddCopier ops (ops.New dst src st).1 g (ops.New dst src st).2) := by
  refine ⟨⟨rfl, rfl, fun hwf => ⟨?_, PushBack_wf c g hwf⟩⟩, ?_, ⟨?_, ?_, ?_⟩, ?_,
    ⟨?_, ?_, ?_, ?_⟩, ⟨fun _ => rfl, fun _ _ _ => rfl, fun _ _ _ => rfl, fun _ _ => rfl⟩,
    ⟨rfl, fun _ _ => rfl⟩⟩
  · intro e he
    have := hwf.2 e he
    omega
  · intro g1 h1
    have hf := eraseP_id_eq_filter g.next g1.list h1.1
    refine ⟨hf, ?_, ?_, Remove_wf _ _ h1⟩
    · intro e he
      have he2 : e ∈ g1.list.filter (fun e => e.id != g.next) := by rw [← hf]; exact he
      simpa using (List.mem_filter.1 he2).2
    · rintro ⟨e, he, hid⟩
      show (g1.list.eraseP _).length + 1 = _
      rw [List.length_eraseP_of_mem he (by simp [hid])]
      have : 0 < g1.list.length := List.length_pos_of_mem he
      omega
  · intro st1 h
    unfold element.Copy
    simp only [h]
  · intro h
    unfold element.Copy
    simp only [h]
  · intro h
    unfold element.Copy
    simp only [h]
    rfl
  · intro hwf
    refine ⟨Remove_PushBack c g hwf, ?_, ?_⟩
    · intro st1 h
      unfold element.Copy
      simp only [h]
      rw [Remove_PushBack c g hwf]
    · intro h
      unfold element.Copy
      simp only [h]
      rw [Remove_PushBack c g hwf]
  · intro ctx env fuel i g0 st0 h
    unfold Group.Wait
    simp [h]
  · intro ctx env fuel i g0 st0 st1 front err hf hw
    unfold Group.Wait
    simp only [hf, hw]
  · intro ctx env fuel i g0 st0 st1 front hf hw
    conv_lhs => unfold Group.Wait
    simp only [hf, hw]
  · intro ctx env fuel i g0 st0 st1 front hl hw he
    have hf : g0.list.head? = some front := by rw [hl]; rfl
    have hempty : (Group.acts (env i) g0).list = [] := by
      rw [he]
      show (g0.list.eraseP _) = []
      rw [hl, List.eraseP_cons_of_pos (by simp)]
    conv_lhs => unfold Group.Wait
    simp only [hf, hw]
    unfold Group.Wait
    simp [hempty]

/-- C9 at concrete groups: a member added to the empty group whose transfer
fails is out of the list afterwards; a member whose transfer has not returned
is in the list; `Group.Wait` on the empty list returns nil under a cancelled
context, and with one member it returns nil once that member's node is
removed. -/
theorem element_Copy_membership_witness :
    (∃ st1, element.Copy (instanceOps 1 none idle) 0 (Group.zero Nat)
        (Heap.alloc (New sink failingReader) Heap.zero).2 = (.ok st1, { list := [], next := 1 })) ∧
    element.Copy (instanceOps 1 none idle) 0 (Group.zero Nat)
        (Heap.alloc (New sink chunkReader) Heap.zero).2 =
      (.pending, { list := [{ id := 0, Copier := 0 }], next := 1 }) ∧
    Group.Wait (instanceOps 1 none idle) cancelled (fun _ => []) 1 0 { list := [], next := 1 }
        Heap.zero = .ok (none, Heap.zero) ∧
    ∃ st1, Group.Wait (instanceOps 1 none idle) background (fun _ => [ListAct.remove 0]) 2 0
        { list := [{ id := 0, Copier := 0 }], next := 1 }
        (Heap.alloc (New sink chunkReader) Heap.zero).2 = .ok (none, st1) := by
  have h1 := element_Copy_membership (instanceOps 1 none idle) 0 (Group.zero Nat)
    (Heap.alloc (New sink failingReader) Heap.zero).2
  have h2 := element_Copy_membership (instanceOps 1 none idle) 0 (Group.zero Nat)
    (Heap.alloc (New sink chunkReader) Heap.zero).2
  refine ⟨⟨_, (h1.2.2.2.1 ⟨List.nodup_nil, fun _ h => nomatch h⟩).2.1 _ rfl⟩,
    h2.2.2.1.2.2 rfl, h1.2.2.2.2.1.1 cancelled (fun _ => []) 0 0 { list := [], next := 1 } Heap.zero rfl,
    ⟨_, h2.2.2.2.2.1.2.2.2 background (fun _ => [ListAct.remove 0]) 0 0
      { list := [{ id := 0, Copier := 0 }], next := 1 }
      (Heap.alloc (New sink chunkReader) Heap.zero).2 _ { id := 0, Copier := 0 } rfl rfl rfl⟩⟩

theorem perm_cons_eraseIdx {α : Type} (a : α) :
    ∀ (l : List α) (i : Nat), l[i]? = some a → (a :: l.eraseIdx i).Perm l := by
  intro l
  induction l with
  | nil => intro i h; simp at h
  | cons b t ih =>
    intro i h
    cases i with
    | zero => simp at h; subst h; simp
    | succ i =>
      simp at h
      simp only [List.eraseIdx_cons_succ]
      exact (List.Perm.swap b a _).trans ((ih i h).cons b)

theorem Delivered_ids {κ σ : Type} (ops : CopierOps κ σ) (ctx : Context)
    (ms : List (element κ)) (st : σ) (run : List (Nat × Option Error)) (st1 : σ)
    (h : Delivered ops ctx ms st run st1) :
    run.map Prod.fst = ms.map (fun e => e.id) ∧ run.length = ms.length := by
  induction h with
  | nil => exact ⟨rfl, rfl⟩
  | cons e ms st r run st1 _ _ ih => exact ⟨by simp [ih.1], by simp [ih.2]⟩

theorem Delivered_calls {κ σ : Type} (ops : CopierOps κ σ) (ctx : Context)
    (ms : List (element κ)) (st : σ) (run : List (Nat × Option Error)) (st1 : σ)
    (h : Delivered ops ctx ms st run st1) :
    ∀ p ∈ run, ∃ e ∈ ms, ∃ st0 r,
      e.id = p.1 ∧ ops.Shutdown ctx e.Copier st0 = .ok r ∧ r.1 = p.2 := by
  induction h with
  | nil => intro p hp; cases hp
  | cons e ms st r run st1 hr _ ih =>
    intro p hp
    rcases List.mem_cons.1 hp with rfl | hp
    · exact ⟨e, List.mem_cons_self _ _, st, r, rfl, hr, rfl⟩
    · obtain ⟨e1, he1, st0, r0, h1, h2, h3⟩ := ih p hp
      exact ⟨e1, List.mem_cons_of_mem _ he1, st0, r0, h1, h2, h3⟩

theorem deliveryOrder_perm {κ : Type} (pick : Nat → Nat) (n : Nat) :
    ∀ (k : Nat) (todo : List (element κ)), todo.length = n →
      (deliveryOrder pick n k todo).Perm todo := by
  induction n with
  | zero =>
    intro k todo hlen
    have : todo = [] := List.length_eq_zero.1 hlen
    subst this
    exact List.Perm.refl _
  | succ n ih =>
    intro k todo hlen
    have hi : pick k % todo.length < todo.length := Nat.mod_lt _ (by omega)
    have hget : todo[pick k % todo.length]? = some todo[pick k % todo.length] :=
      List.getElem?_eq_getElem hi
    have hlen2 : (todo.eraseIdx (pick k % todo.length)).length = n := by
      rw [List.length_eraseIdx_of_lt hi]; omega
    unfold deliveryOrder
    simp only [hget]
    exact ((ih (k + 1) _ hlen2).cons _).trans (perm_cons_eraseIdx _ _ _ hget)

theorem deliveryOrder_inOrder {κ : Type} (pick : Nat → Nat) (hpick : ∀ k, pick k = 0) (n : Nat) :
    ∀ (k : Nat) (todo : List (element κ)), todo.length = n →
      deliveryOrder pick n k todo = todo := by
  induction n with
  | zero =>
    intro k todo hlen
    have : todo = [] := List.length_eq_zero.1 hlen
    subst this
    rfl
  | succ n ih =>
    intro k todo hlen
    cases todo with
    | nil => simp at hlen
    | cons e t =>
      have hget : (e :: t)[pick k % (e :: t).length]? = some e := by simp [hpick k]
      have her : (e :: t).eraseIdx (pick k % (e :: t).length) = t := by simp [hpick k]
      unfold deliveryOrder
      simp only [hget, her]
      rw [ih (k + 1) t (by simpa using hlen)]

theorem deliveryOrder_congr {κ : Type} (p q : Nat → Nat) (n : Nat) :
    ∀ (k : Nat) (todo : List (element κ)), (∀ j, k ≤ j → p j = q j) →
      deliveryOrder p n k todo = deliveryOrder q n k todo := by
  induction n with
  | zero => intro k todo _; rfl
  | succ n ih =>
    intro k todo h
    unfold deliveryOrder
    rw [h k (Nat.le_refl k)]
    cases todo[q k % todo.length]? with
    | none => rfl
    | some e =>
      simp only
      rw [ih (k + 1) _ (fun j hj => h j (by omega))]

/-- Every order of the members is the delivery order under some scheduler. -/
theorem deliveryOrder_surj {κ : Type} (n : Nat) :
    ∀ (k : Nat) (todo order : List (element κ)), todo.length = n → order.Perm todo →
      ∃ pick, deliveryOrder pick n k todo = order := by
  induction n with
  | zero =>
    intro k todo order hlen hperm
    have : todo = [] := List.length_eq_zero.1 hlen
    subst this
    exact ⟨fun _ => 0, by rw [hperm.eq_nil]; rfl⟩
  | succ n ih =>
    intro k todo order hlen hperm
    cases order with
    | nil => have := hperm.length_eq; simp at this; omega
    | cons e rest =>
      have he : e ∈ todo := hperm.subset (List.mem_cons_self _ _)
      obtain ⟨i, hi, hie⟩ := List.mem_iff_getElem.1 he
      have hget : todo[i]? = some e := by rw [List.getElem?_eq_getElem hi, hie]
      have hrest : rest.Perm (todo.eraseIdx i) :=
        List.Perm.cons_inv (hperm.trans (perm_cons_eraseIdx e todo i hget).symm)
      have hlen2 : (todo.eraseIdx i).length = n := by
        rw [List.length_eraseIdx_of_lt hi]; omega
      obtain ⟨pick1, hp1⟩ := ih (k + 1) (todo.eraseIdx i) rest hlen2 hrest
      refine ⟨fun j => if j = k then i else pick1 j, ?_⟩
      unfold deliveryOrder
      simp only [if_true, Nat.mod_eq_of_lt hi, hget]
      rw [deliveryOrder_congr _ pick1 n (k + 1) _ (fun j hj => by
        have : j ≠ k := by omega
        simp [this]), hp1]

/-- The run of the goroutines returns exactly when the calls in delivery order
all return, each on the store the one before it left, and then with their
results and the last store. -/
theorem shutdownRun_iff {κ σ : Type} (ops : CopierOps κ σ) (ctx : Context) (pick : Nat → Nat)
    (n : Nat) :
    ∀ (k : Nat) (todo : List (element κ)) (st : σ) (run : List (Nat × Option Error)) (st1 : σ),
      todo.length = n →
      (Group.shutdownRun ops ctx pick n k todo st = .ok (run, st1) ↔
        Delivered ops ctx (deliveryOrder pick n k todo) st run st1) := by
  induction n with
  | zero =>
    intro k todo st run st1 hlen
    have : todo = [] := List.length_eq_zero.1 hlen
    subst this
    simp only [Group.shutdownRun, deliveryOrder]
    constructor
    · intro h; cases h; exact Delivered.nil st
    · intro h; cases h; rfl
  | succ n ih =>
    intro k todo st run st1 hlen
    have hi : pick k % todo.length < todo.length := Nat.mod_lt _ (by omega)
    have hget : todo[pick k % todo.length]? = some todo[pick k % todo.length] :=
      List.getElem?_eq_getElem hi
    have hlen2 : (todo.eraseIdx (pick k % todo.length)).length = n := by
      rw [List.length_eraseIdx_of_lt hi]; omega
    unfold Group.shutdownRun deliveryOrder
    simp only [hget]
    constructor
    · intro h
      cases hs : ops.Shutdown ctx (todo[pick k % todo.length]).Copier st with
      | fault => rw [hs] at h; cases h
      | pending => rw [hs] at h; cases h
      | ok r =>
        rw [hs] at h
        simp only at h
        cases hrest : Group.shutdownRun ops ctx pick n (k + 1)
            (todo.eraseIdx (pick k % todo.length)) r.2 with
        | fault => rw [hrest] at h; cases h
        | pending => rw [hrest] at h; cases h
        | ok rest =>
          rw [hrest] at h
          cases h
          exact Delivered.cons _ _ _ _ _ _ hs ((ih (k + 1) _ r.2 rest.1 rest.2 hlen2).1 hrest)
    · intro h
      cases h with
      | cons _ _ _ r run1 _ hs hdel =>
        rw [hs]
        simp only
        rw [(ih (k + 1) _ r.2 run1 st1 hlen2).2 hdel]

/-- When every member's `Shutdown` returns on every store, the calls in any
order all return. -/
theorem Delivered_exists {κ σ : Type} (ops : CopierOps κ σ) (ctx : Context) :
    ∀ (ms : List (element κ)) (st : σ),
      (∀ e ∈ ms, ∀ st0, ∃ r, ops.Shutdown ctx e.Copier st0 = .ok r) →
      ∃ run st1, Delivered ops ctx ms st run st1 := by
  intro ms
  induction ms with
  | nil => intro st _; exact ⟨[], st, Delivered.nil st⟩
  | cons e t ih =>
    intro st hret
    obtain ⟨r, hr⟩ := hret e (List.mem_cons_self _ _) st
    obtain ⟨run, st1, hdel⟩ := ih r.2 (fun e1 he1 st0 => hret e1 (List.mem_cons_of_mem _ he1) st0)
    exact ⟨_, st1, Delivered.cons _ _ _ _ _ _ hr hdel⟩

/-- C8: under every scheduler the goroutines deliver in an order that holds
every member of the snapshot exactly once (list order when they deliver in
list order), and every order of the members is the delivery order under some
scheduler.  `Group.Shutdown` returns exactly when the calls of `Shutdown(ctx)`
on the members in delivery order, each made once and on the store the call
before it left, all return; its result is then the aggregate of what these
calls returned and its store the one the last call left.  So when the
`Shutdown` of every member returns (with or without an error), `Group.Shutdown`
returns, having collected as many results as the snapshot has members, and its
result is nil iff every one of them is nil (so nil for an empty group), and
otherwise exposes every one that is not. -/
theorem Group_Shutdown_aggregate {κ σ : Type} (ops : CopierOps κ σ) (ctx : Context)
    (pick : Nat → Nat) (g : Group κ) (st : σ) :
    ((deliveryOrder pick g.list.length 0 g.list).Perm g.list ∧
      ((∀ k, pick k = 0) → deliveryOrder pick g.list.length 0 g.list = g.list) ∧
      (∀ order : List (element κ), order.Perm g.list →
        ∃ pick0, deliveryOrder pick0 g.list.length 0 g.list = order)) ∧
    (∀ run st1,
      Group.shutdownRun ops ctx pick g.list.length 0 g.list st = .ok (run, st1) ↔
        Delivered ops ctx (deliveryOrder pick g.list.length 0 g.list) st run st1) ∧
    (∀ res st1,
      Group.Shutdown ops ctx pick g st = .ok (res, st1) ↔
        ∃ run, Delivered ops ctx (deliveryOrder pick g.list.length 0 g.list) st run st1 ∧
          res = ErrorOrNil (Append none (run.map Prod.snd))) ∧
    ((∀ e ∈ g.list, ∀ st0, ∃ r, ops.Shutdown ctx e.Copier st0 = .ok r) →
      ∃ run st1,
        Delivered ops ctx (deliveryOrder pick g.list.length 0 g.list) st run st1 ∧
        Group.shutdownRun ops ctx pick g.list.length 0 g.list st = .ok (run, st1) ∧
        Group.Shutdown ops ctx pick g st =
          .ok (ErrorOrNil (Append none (run.map Prod.snd)), st1) ∧
        run.length = g.list.length ∧
        (run.map Prod.fst).Perm (g.list.map (fun e => e.id)) ∧
        (∀ p ∈ run, ∃ e ∈ g.list, ∃ st0 r,
          e.id = p.1 ∧ ops.Shutdown ctx e.Copier st0 = .ok r ∧ r.1 = p.2) ∧
        (ErrorOrNil (Append none (run.map Prod.snd)) = none ↔ ∀ p ∈ run, p.2 = none) ∧
        (∀ p ∈ run, ∀ err, p.2 = some err →
          ∃ agg, ErrorOrNil (Append none (run.map Prod.snd)) = some agg ∧
            err ∈ agg.causes)) ∧
    (g.list = [] → Group.Shutdown ops ctx pick g st = .ok (none, st)) := by
  have hperm := deliveryOrder_perm pick g.list.length 0 g.list rfl
  have hiff := fun run st1 => shutdownRun_iff ops ctx pick g.list.length 0 g.list st run st1 rfl
  refine ⟨⟨hperm, fun hpick => deliveryOrder_inOrder pick hpick _ 0 g.list rfl,
    fun order ho => deliveryOrder_surj g.list.length 0 g.list order rfl ho⟩, hiff, ?_, ?_, ?_⟩
  · intro res st1
    unfold Group.Shutdown
    simp only
    constructor
    · intro h
      cases hrun : Group.shutdownRun ops ctx pick g.list.length 0 g.list st with
      | fault => rw [hrun] at h; cases h
      | pending => rw [hrun] at h; cases h
      | ok run =>
        rw [hrun] at h
        cases h
        exact ⟨run.1, (hiff run.1 run.2).1 hrun, rfl⟩
    · rintro ⟨run, hdel, rfl⟩
      rw [(hiff run st1).2 hdel]
  · intro hret
    obtain ⟨run, st1, hdel⟩ := Delivered_exists ops ctx
      (deliveryOrder pick g.list.length 0 g.list) st
      (fun e he st0 => hret e (hperm.subset he) st0)
    have hrun := (hiff run st1).2 hdel
    have hagg := aggregate_spec none (run.map Prod.snd)
    have hids := Delivered_ids ops ctx _ st run st1 hdel
    refine ⟨run, st1, hdel, hrun, ?_, ?_, ?_, ?_, ?_, ?_⟩
    · unfold Group.Shutdown
      simp only [hrun]
    · rw [hids.2]; exact hperm.length_eq
    · rw [hids.1]; exact hperm.map _
    · intro p hp
      obtain ⟨e, he, st0, r, h1, h2, h3⟩ := Delivered_calls ops ctx _ st run st1 hdel p hp
      exact ⟨e, hperm.subset he, st0, r, h1, h2, h3⟩
    · rw [hagg.1]
      constructor
      · intro h p hp
        exact h p.2 (List.mem_cons_of_mem _ (List.mem_map_of_mem _ hp))
      · intro h x hx
        rcases List.mem_cons.1 hx with rfl | hx
        · rfl
        · obtain ⟨p, hp, rfl⟩ := List.mem_map.1 hx
          exact h p hp
    · intro p hp err he
      apply hagg.2
      exact List.mem_cons_of_mem _ (by rw [← he]; exact List.mem_map_of_mem _ hp)
  · intro hnil
    unfold Group.Shutdown
    rw [hnil]
    rfl

theorem Shutdown_returns (ctx : Context) (sch : Sched) (s : State) (n : Int) (err : Option Error)
    (h : sch.wake = some (Wake.finished n err)) : ∃ r, Shutdown ctx sch s = .ok r := by
  have hw : ∃ w, Wait ctx sch (CloseRead s).2 = .ok w := by
    unfold Wait
    simp only [h]
    cases (CloseRead s).2.c.done with
    | none => exact ⟨_, rfl⟩
    | some ch =>
      cases ch with
      | closed =>
        cases ctx.err with
        | none => exact ⟨_, rfl⟩
        | some e =>
          cases sch.pickCtx with
          | true => exact ⟨_, rfl⟩
          | false => exact ⟨_, rfl⟩
      | live =>
        cases ctx.err with
        | none => exact ⟨_, rfl⟩
        | some e => exact ⟨_, rfl⟩
  obtain ⟨w, hw⟩ := hw
  unfold Shutdown
  simp only [hw]
  cases w.2.1.err with
  | none => exact ⟨_, rfl⟩
  | some e => exact ⟨_, rfl⟩

/-- C8 at a concrete group of two members, the first of which fails to close
both of its endpoints (errors 2 and 4), with the goroutines delivering in list
order: the two members are called in list order, `Group.Shutdown` returns an
aggregate that holds the first member's error, and the second member was shut
down as well. -/
theorem Group_Shutdown_aggregate_witness :
    (∃ (run : List (Nat × Option Error)) (st1 : Heap),
      Delivered (instanceOps 1 none finishing) background twoMembers.list twoCopiers run st1 ∧
      Group.Shutdown (instanceOps 1 none finishing) background inOrder twoMembers twoCopiers =
        .ok (ErrorOrNil (Append none (run.map Prod.snd)), st1) ∧ run.length = 2) ∧
    ∃ st1,
      Group.Shutdown (instanceOps 1 none finishing) background inOrder twoMembers twoCopiers =
        .ok (some (Error.multi [Error.multi [Error.other 2, Error.other 4]]), st1) ∧
      (st1.obj 0).trace = [Event.srcCloseRead, Event.wait, Event.dstCloseWrite] ∧
      (st1.obj 1).c.src = none ∧ (st1.obj 1).c.dst = none ∧
      (st1.obj 1).trace = [Event.wait, Event.dstClose] := by
  have hall := Group_Shutdown_aggregate (instanceOps 1 none finishing) background inOrder
    twoMembers twoCopiers
  obtain ⟨run, st1, hdel, -, h, hl, -⟩ := hall.2.2.2.1
    (fun e _ st0 => by
      obtain ⟨r, hr⟩ := Shutdown_returns background finishing (st0.obj e.Copier) 3 none rfl
      exact ⟨(r.1, { st0 with obj := Function.update st0.obj e.Copier r.2 }), by
        simp [instanceOps, Heap.call, hr]⟩)
  rw [hall.1.2.1 (fun _ => rfl)] at hdel
  exact ⟨⟨run, st1, hdel, h, hl⟩, _, rfl, rfl, rfl, rfl, rfl⟩

end Copier
